import Mathlib

/-!
Shallow embedding of `src/image_encryptor.py` (passphrase-driven image
permutation + XOR transform) together with the library routines it relies on:
`hashlib.sha256` (FIPS 180-4 SHA-256) and `numpy.random.RandomState`
(MT19937 with the legacy `permutation`/`randint` derivations).

Byte buffers are `List Nat` with every entry below 256; machine words are
`Nat` reduced modulo `2 ^ 32` where the original code works on `uint32`.
-/

namespace ImageEncryptor

/-- Truncation to a 32-bit word, the `& 0xffffffff` of the C sources. -/
def w32 (x : Nat) : Nat := x % 4294967296

/-- Right rotation of a 32-bit word by `n` places. -/
def rotr32 (n x : Nat) : Nat := w32 ((x >>> n) ||| (x <<< (32 - n)))

/-- SHA-256 choice function `Ch(x,y,z) = (x ∧ y) ⊕ (¬x ∧ z)` on 32-bit words. -/
def shaCh (x y z : Nat) : Nat := (x &&& y) ^^^ ((x ^^^ 4294967295) &&& z)

/-- SHA-256 majority function `Maj(x,y,z)`. -/
def shaMaj (x y z : Nat) : Nat := (x &&& y) ^^^ (x &&& z) ^^^ (y &&& z)

/-- SHA-256 big sigma 0: `ROTR2 ⊕ ROTR13 ⊕ ROTR22`. -/
def bsig0 (x : Nat) : Nat := rotr32 2 x ^^^ rotr32 13 x ^^^ rotr32 22 x

/-- SHA-256 big sigma 1: `ROTR6 ⊕ ROTR11 ⊕ ROTR25`. -/
def bsig1 (x : Nat) : Nat := rotr32 6 x ^^^ rotr32 11 x ^^^ rotr32 25 x

/-- SHA-256 small sigma 0: `ROTR7 ⊕ ROTR18 ⊕ SHR3`. -/
def ssig0 (x : Nat) : Nat := rotr32 7 x ^^^ rotr32 18 x ^^^ (x >>> 3)

/-- SHA-256 small sigma 1: `ROTR17 ⊕ ROTR19 ⊕ SHR10`. -/
def ssig1 (x : Nat) : Nat := rotr32 17 x ^^^ rotr32 19 x ^^^ (x >>> 10)

/-- The 64 SHA-256 round constants (FIPS 180-4, section 4.2.2), in decimal. -/
def sha256K : List Nat :=
  [1116352408, 1899447441, 3049323471, 3921009573, 961987163, 1508970993,
   2453635748, 2870763221, 3624381080, 310598401, 607225278, 1426881987,
   1925078388, 2162078206, 2614888103, 3248222580, 3835390401, 4022224774,
   264347078, 604807628, 770255983, 1249150122, 1555081692, 1996064986,
   2554220882, 2821834349, 2952996808, 3210313671, 3336571891, 3584528711,
   113926993, 338241895, 666307205, 773529912, 1294757372, 1396182291,
   1695183700, 1986661051, 2177026350, 2456956037, 2730485921, 2820302411,
   3259730800, 3345764771, 3516065817, 3600352804, 4094571909, 275423344,
   430227734, 506948616, 659060556, 883997877, 958139571, 1322822218,
   1537002063, 1747873779, 1955562222, 2024104815, 2227730452, 2361852424,
   2428436474, 2756734187, 3204031479, 3329325298]

/-- Big-endian bytes of `x`, exactly `k` bytes long (most significant first). -/
def natToBytesBE : Nat → Nat → List Nat
  | 0, _ => []
  | k + 1, x => natToBytesBE k (x / 256) ++ [x % 256]

/-- SHA-256 message padding: append `0x80`, zeros to 56 mod 64, then the
bit length as an 8-byte big-endian integer. -/
def sha256Pad (msg : List Nat) : List Nat :=
  let padLen := (119 - msg.length % 64) % 64
  msg ++ 0x80 :: (List.replicate padLen 0 ++ natToBytesBE 8 (8 * msg.length))

/-- Group a byte list into big-endian 32-bit words, four bytes per word. -/
def bytesToWordsBE : List Nat → List Nat
  | b0 :: b1 :: b2 :: b3 :: rest =>
      (((b0 * 256 + b1) * 256 + b2) * 256 + b3) :: bytesToWordsBE rest
  | _ => []

/-- The eight 32-bit working variables of SHA-256. -/
structure Hash8 where
  a : Nat
  b : Nat
  c : Nat
  d : Nat
  e : Nat
  f : Nat
  g : Nat
  h : Nat

/-- SHA-256 initial hash value (FIPS 180-4, section 5.3.3), in decimal. -/
def sha256H0 : Hash8 :=
  ⟨1779033703, 3144134277, 1013904242, 2773480762,
   1359893119, 2600822924, 528734635, 1541459225⟩

/-- Extend a 16-word block to the 64-word SHA-256 message schedule. -/
def sha256Extend (block : List Nat) : List Nat :=
  (List.range 48).foldl
    (fun w _ =>
      let n := w.length
      w ++ [w32 (ssig1 (w.getD (n - 2) 0) + w.getD (n - 7) 0 +
                 ssig0 (w.getD (n - 15) 0) + w.getD (n - 16) 0)])
    block

/-- One SHA-256 compression of a 16-word block into the running hash. -/
def sha256Compress (st : Hash8) (block : List Nat) : Hash8 :=
  let w := sha256Extend block
  let st1 := (List.zip sha256K w).foldl
    (fun s p =>
      let t1 := w32 (s.h + bsig1 s.e + shaCh s.e s.f s.g + p.1 + p.2)
      let t2 := w32 (bsig0 s.a + shaMaj s.a s.b s.c)
      ⟨w32 (t1 + t2), s.a, s.b, s.c, w32 (s.d + t1), s.e, s.f, s.g⟩)
    st
  ⟨w32 (st.a + st1.a), w32 (st.b + st1.b), w32 (st.c + st1.c), w32 (st.d + st1.d),
   w32 (st.e + st1.e), w32 (st.f + st1.f), w32 (st.g + st1.g), w32 (st.h + st1.h)⟩

/-- Fold the compression over `k` consecutive 64-byte blocks. -/
def sha256BlocksGo : Nat → Hash8 → List Nat → Hash8
  | 0, st, _ => st
  | k + 1, st, bytes =>
      sha256BlocksGo k (sha256Compress st (bytesToWordsBE (bytes.take 64))) (bytes.drop 64)

/-- SHA-256 digest of a byte list: pad, compress each block, serialize the
eight state words big-endian into 32 bytes.  Models `hashlib.sha256(...).digest()`. -/
def sha256 (msg : List Nat) : List Nat :=
  let padded := sha256Pad msg
  let st := sha256BlocksGo (padded.length / 64) sha256H0 padded
  [st.a, st.b, st.c, st.d, st.e, st.f, st.g, st.h].flatMap (natToBytesBE 4)

/-- UTF-8 encoding of one Unicode scalar value, as a list of bytes. -/
def utf8EncodeChar (c : Char) : List Nat :=
  let n := c.toNat
  if n < 0x80 then [n]
  else if n < 0x800 then [0xc0 + n / 0x40, 0x80 + n % 0x40]
  else if n < 0x10000 then
    [0xe0 + n / 0x1000, 0x80 + (n / 0x40) % 0x40, 0x80 + n % 0x40]
  else
    [0xf0 + n / 0x40000, 0x80 + (n / 0x1000) % 0x40, 0x80 + (n / 0x40) % 0x40, 0x80 + n % 0x40]

/-- UTF-8 encoding of a string, modelling Python's `str.encode("utf-8")`. -/
def utf8Bytes (s : String) : List Nat := s.data.flatMap utf8EncodeChar

/-- Big-endian integer value of a byte list, modelling
`int.from_bytes(bs, byteorder="big", signed=False)`. -/
def fromBytesBE (l : List Nat) : Nat := l.foldl (fun acc b => acc * 256 + b) 0

/-- Embedding of `sha256_to_int(s, salt)` from `src/image_encryptor.py`:
the first 8 bytes of `sha256(salt + s)`, read as a big-endian unsigned integer. -/
def sha256_to_int (s : String) (salt : String := "") : Nat :=
  fromBytesBE ((sha256 (utf8Bytes (salt ++ s))).take 8)

/-! ## MT19937, modelling `numpy.random.RandomState`

`RandomState(seed)` for a Python integer seed below `2 ^ 32` runs the
classical `init_genrand`; the raw generator is the standard Mersenne
Twister.  The state vector is a list of 624 32-bit words plus a position
index (624 after seeding, so the first draw regenerates the vector). -/

/-- Mersenne Twister state: 624 32-bit words and the read position. -/
structure MT where
  mt : List Nat
  idx : Nat

/-- Tail of the `init_genrand` seeding loop: produce `k` further state words
starting at index `i`, given the previous word. -/
def mtInitGo : Nat → Nat → Nat → List Nat
  | _, _, 0 => []
  | prev, i, k + 1 =>
      let cur := w32 (1812433253 * (prev ^^^ (prev >>> 30)) + i)
      cur :: mtInitGo cur (i + 1) k

/-- Seed the generator: `init_genrand(seed & 0xffffffff)` with position 624. -/
def mtInit (seed : Nat) : MT :=
  let s0 := w32 seed
  ⟨s0 :: mtInitGo s0 1 623, 624⟩

/-- Regenerate all 624 state words in place (the MT19937 twist). -/
def mtTwist (m : List Nat) : List Nat :=
  (List.range 624).foldl
    (fun v i =>
      let y := (v.getD i 0 &&& 0x80000000) ||| (v.getD ((i + 1) % 624) 0 &&& 0x7fffffff)
      v.set i ((v.getD ((i + 397) % 624) 0) ^^^ (y >>> 1) ^^^
               (if y % 2 = 1 then 0x9908b0df else 0)))
    m

/-- MT19937 output tempering. -/
def temper (y0 : Nat) : Nat :=
  let y1 := y0 ^^^ (y0 >>> 11)
  let y2 := y1 ^^^ ((y1 <<< 7) &&& 0x9d2c5680)
  let y3 := y2 ^^^ ((y2 <<< 15) &&& 0xefc60000)
  y3 ^^^ (y3 >>> 18)

/-- Draw one 32-bit output (`genrand_int32` / `next_uint32`). -/
def genrandInt32 (s : MT) : Nat × MT :=
  let s := if s.idx ≥ 624 then MT.mk (mtTwist s.mt) 0 else s
  (temper (s.mt.getD s.idx 0), MT.mk s.mt (s.idx + 1))

/-- Smallest mask of the form `2 ^ k - 1` covering `m`, via or-shift folding
as in numpy's `random_interval`. -/
def maskFor (m : Nat) : Nat :=
  let m := m ||| (m >>> 1)
  let m := m ||| (m >>> 2)
  let m := m ||| (m >>> 4)
  let m := m ||| (m >>> 8)
  let m := m ||| (m >>> 16)
  m ||| (m >>> 32)

/-- Masked-rejection loop of numpy's `random_interval`, with explicit fuel
(the source loops until acceptance; rejection halves the measure each turn). -/
def randomIntervalGo : Nat → MT → Nat → Nat → Nat × MT
  | 0, s, _, _ => (0, s)
  | fuel + 1, s, mask, bound =>
      let p := genrandInt32 s
      if p.1 &&& mask ≤ bound then (p.1 &&& mask, p.2)
      else randomIntervalGo fuel p.2 mask bound

/-- Fuel budget for the rejection loop; each turn rejects with probability
below one half, so this is never exhausted in a real run. -/
def intervalFuel : Nat := 128

/-- numpy's `random_interval(state, bound)`: uniform draw on `[0, bound]`
by masked rejection over raw 32-bit outputs; `bound = 0` draws nothing. -/
def random_interval (s : MT) (bound : Nat) : Nat × MT :=
  if bound = 0 then (0, s)
  else randomIntervalGo intervalFuel s (maskFor bound) bound

/-- Fisher–Yates loop of `RandomState.shuffle`: for `i` from `n - 1` down to
1, draw `j` uniform on `[0, i]` and swap positions `i` and `j`.  The counter
argument is the current `i`. -/
def shuffleGo : List Nat → MT → Nat → List Nat × MT
  | arr, s, 0 => (arr, s)
  | arr, s, i + 1 =>
      let p := random_interval s (i + 1)
      shuffleGo ((arr.set (i + 1) (arr.getD p.1 0)).set p.1 (arr.getD (i + 1) 0)) p.2 i

/-- `RandomState.permutation(n)`: `arange(n)` followed by the shuffle. -/
def npPermutation (s : MT) (n : Nat) : List Nat :=
  (shuffleGo (List.range n) s (n - 1)).1

/-- First `k` raw 32-bit outputs of the generator. -/
def mtOutputs : MT → Nat → List Nat
  | _, 0 => []
  | s, k + 1 => (genrandInt32 s).1 :: mtOutputs (genrandInt32 s).2 k

/-- `RandomState.randint(0, 256, size=n, dtype=uint8)`: bytes are taken
four per raw 32-bit word, least-significant byte first (numpy's buffered
masked-uint8 path; with range 256 the mask is 0xff and nothing is rejected). -/
def npRandintBytes (s : MT) (n : Nat) : List Nat :=
  let ws := mtOutputs s ((n + 3) / 4)
  (List.range n).map (fun i => (ws.getD (i / 4) 0 >>> (8 * (i % 4))) % 256)

/-! ## The core transform functions of `src/image_encryptor.py` -/

/-- Embedding of `generate_permutation(n, key)`. -/
def generate_permutation (n : Nat) (key : String) : List Nat :=
  let seed := sha256_to_int key "perm"
  npPermutation (mtInit (seed % 2 ^ 32)) n

/-- Embedding of `generate_keystream(n, key)`. -/
def generate_keystream (n : Nat) (key : String) : List Nat :=
  let seed := sha256_to_int key "xor"
  npRandintBytes (mtInit (seed % 2 ^ 32)) n

/-- Embedding of `encrypt_bytes(arr_bytes, key)`: gather the buffer in
permuted order (`arr_bytes[perm]`), then XOR with the keystream. -/
def encrypt_bytes (arr_bytes : List Nat) (key : String) : List Nat :=
  let n := arr_bytes.length
  let perm := generate_permutation n key
  let keystream := generate_keystream n key
  let permuted := perm.map (fun j => arr_bytes.getD j 0)
  List.zipWith Nat.xor permuted keystream

/-- Embedding of the `inv_perm` construction of `decrypt_bytes`:
`inv_perm[perm[i]] = i` for every i. -/
def invPerm (perm : List Nat) : List Nat :=
  (List.range perm.length).foldl
    (fun acc i => acc.set (perm.getD i 0) i)
    (List.replicate perm.length 0)

/-- Embedding of `decrypt_bytes(enc_bytes, key)`: XOR away the keystream,
then scatter back through the inverse permutation (`permuted[inv_perm]`). -/
def decrypt_bytes (enc_bytes : List Nat) (key : String) : List Nat :=
  let n := enc_bytes.length
  let keystream := generate_keystream n key
  let permuted := List.zipWith Nat.xor enc_bytes keystream
  let perm := generate_permutation n key
  let inv := invPerm perm
  inv.map (fun j => permuted.getD j 0)

/-! ## File-level operations

The image codec (OpenCV) is an external collaborator.  Loading is modelled
by a filesystem map `String → Option Image` (`none` when `cv2.imread`
returns `None`, i.e. the path is missing or not decodable); saving by the
record of the written file.  `cv2.imwrite` chooses the output codec from
the filename extension of the path it is given. -/

/-- A decoded image: flattened pixel bytes plus the (shape, dtype) metadata
needed to reconstruct it. -/
structure Image where
  flat : List Nat
  shape : List Nat
  dtype : String

/-- Record of one file written by the codec. -/
structure WrittenFile where
  path : String
  bytes : List Nat
  shape : List Nat
  dtype : String

/-- Embedding of `read_image_as_bytes(path)`: `cv2.imread` returning `None`
raises `FileNotFoundError("Could not read image: " + path)`. -/
def read_image_as_bytes (fs : String → Option Image) (path : String) :
    Except String Image :=
  match fs path with
  | none => Except.error ("Could not read image: " ++ path)
  | some img => Except.ok img

/-- Filename extension of a path: the characters after the last dot, empty
when there is no dot. -/
def pathExt (p : String) : String :=
  let r := p.data.reverse
  if r.contains '.' then String.mk ((r.takeWhile (fun c => c ≠ '.')).reverse) else ""

/-- Whether an extension names a lossless OpenCV output codec (PNG, BMP and
TIFF reproduce bytes exactly; JPEG re-quantizes). -/
def losslessExt (ext : String) : Bool :=
  ext = "png" || ext = "bmp" || ext = "tif" || ext = "tiff" ||
  ext = "ppm" || ext = "pgm" || ext = "pbm"

/-- Embedding of `save_bytes_as_image(bytes_flat, shape, dtype, out_path)`:
the reshaped buffer is handed to `cv2.imwrite(out_path, img)` with the
requested path unchanged. -/
def save_bytes_as_image (bytes_flat : List Nat) (shape : List Nat) (dtype : String)
    (out_path : String) : WrittenFile :=
  { path := out_path, bytes := bytes_flat, shape := shape, dtype := dtype }

/-- The format `save_bytes_as_image` actually writes: since it passes
`out_path` verbatim to `cv2.imwrite`, the codec — and hence losslessness —
is selected by the extension of the requested output path. -/
def save_format (out_path : String) : String :=
  pathExt (save_bytes_as_image [] [] "uint8" out_path).path

/-- Embedding of `encrypt_image_file(input_path, output_path, key)`: load,
flatten, encrypt, save; a load failure propagates before any write. -/
def encrypt_image_file (fs : String → Option Image) (input_path output_path key : String) :
    Except String WrittenFile :=
  match read_image_as_bytes fs input_path with
  | Except.error e => Except.error e
  | Except.ok img =>
      Except.ok (save_bytes_as_image (encrypt_bytes img.flat key) img.shape img.dtype output_path)

/-- Embedding of `decrypt_image_file(input_path, output_path, key)`. -/
def decrypt_image_file (fs : String → Option Image) (input_path output_path key : String) :
    Except String WrittenFile :=
  match read_image_as_bytes fs input_path with
  | Except.error e => Except.error e
  | Except.ok img =>
      Except.ok (save_bytes_as_image (decrypt_bytes img.flat key) img.shape img.dtype output_path)

/-! ## Helper lemmas -/

theorem getD_set_self (l : List Nat) (i v : Nat) (hi : i < l.length) :
    (l.set i v).getD i 0 = v := by
  rw [List.getD_eq_getElem _ _ (by simpa using hi)]
  exact List.getElem_set_self _

theorem getD_set_ne (l : List Nat) {i j : Nat} (v : Nat) (hij : i ≠ j) :
    (l.set i v).getD j 0 = l.getD j 0 := by
  by_cases hj : j < l.length
  · rw [List.getD_eq_getElem _ _ (by simpa using hj), List.getD_eq_getElem _ _ hj]
    exact List.getElem_set_ne hij _
  · rw [List.getD_eq_default _ _ (by simpa using Nat.le_of_not_lt hj),
        List.getD_eq_default _ _ (Nat.le_of_not_lt hj)]

/-- Moving the element at position `m` to the front while writing `a` into
position `m` permutes `a :: t`. -/
theorem set_cons_perm (a : Nat) :
    ∀ (t : List Nat) (m : Nat), m < t.length →
      (t.getD m 0 :: t.set m a).Perm (a :: t)
  | b :: r, 0, _ => by simpa using List.Perm.swap a b r
  | b :: r, m + 1, h => by
      have hm : m < r.length := by simpa using h
      have h1 : (r.getD m 0 :: b :: r.set m a).Perm (b :: r.getD m 0 :: r.set m a) :=
        List.Perm.swap _ _ _
      have h2 : (b :: r.getD m 0 :: r.set m a).Perm (b :: a :: r) :=
        (set_cons_perm a r m hm).cons b
      have h3 : (b :: a :: r).Perm (a :: b :: r) := List.Perm.swap _ _ _
      simpa using (h1.trans h2).trans h3

/-- Swapping two in-bounds positions of a list permutes it. -/
theorem swap_perm :
    ∀ (l : List Nat) (i j : Nat), i < l.length → j < l.length →
      ((l.set i (l.getD j 0)).set j (l.getD i 0)).Perm l
  | a :: t, 0, 0, _, _ => by simp
  | a :: t, 0, j + 1, _, hj => by
      have hj1 : j < t.length := by simpa using hj
      simpa using set_cons_perm a t j hj1
  | a :: t, i + 1, 0, hi, _ => by
      have hi1 : i < t.length := by simpa using hi
      simpa using set_cons_perm a t i hi1
  | a :: t, i + 1, j + 1, hi, hj => by
      have hi1 : i < t.length := by simpa using hi
      have hj1 : j < t.length := by simpa using hj
      simpa using (swap_perm t i j hi1 hj1).cons a

theorem randomIntervalGo_le :
    ∀ (fuel : Nat) (s : MT) (mask bound : Nat),
      (randomIntervalGo fuel s mask bound).1 ≤ bound
  | 0, _, _, _ => Nat.zero_le _
  | fuel + 1, s, mask, bound => by
      unfold randomIntervalGo
      by_cases h : (genrandInt32 s).1 &&& mask ≤ bound
      · simp [h]
      · simpa [h] using randomIntervalGo_le fuel (genrandInt32 s).2 mask bound

theorem random_interval_le (s : MT) (bound : Nat) :
    (random_interval s bound).1 ≤ bound := by
  unfold random_interval
  by_cases h : bound = 0
  · simp [h]
  · simpa [h] using randomIntervalGo_le intervalFuel s (maskFor bound) bound

/-- The Fisher–Yates loop only permutes its argument. -/
theorem shuffleGo_perm :
    ∀ (i : Nat) (arr : List Nat) (s : MT), i < arr.length →
      ((shuffleGo arr s i).1).Perm arr
  | 0, arr, s, _ => by simp [shuffleGo]
  | i + 1, arr, s, h => by
      have hj : (random_interval s (i + 1)).1 ≤ i + 1 := random_interval_le s (i + 1)
      have hjlt : (random_interval s (i + 1)).1 < arr.length := Nat.lt_of_le_of_lt hj h
      have hswap :
          ((arr.set (i + 1) (arr.getD (random_interval s (i + 1)).1 0)).set
            (random_interval s (i + 1)).1 (arr.getD (i + 1) 0)).Perm arr :=
        swap_perm arr (i + 1) (random_interval s (i + 1)).1 h hjlt
      have hlen : i < ((arr.set (i + 1) (arr.getD (random_interval s (i + 1)).1 0)).set
          (random_interval s (i + 1)).1 (arr.getD (i + 1) 0)).length := by
        simpa using Nat.lt_of_succ_lt h
      have := shuffleGo_perm i _ (random_interval s (i + 1)).2 hlen
      exact (this.trans hswap)

/-- `RandomState.permutation(n)` really is a permutation of `range n`. -/
theorem npPermutation_perm (s : MT) (n : Nat) :
    (npPermutation s n).Perm (List.range n) := by
  cases n with
  | zero => simp [npPermutation, shuffleGo]
  | succ m =>
      have h : m < (List.range (m + 1)).length := by simp
      simpa [npPermutation] using shuffleGo_perm m (List.range (m + 1)) s h

theorem generate_permutation_perm (n : Nat) (key : String) :
    (generate_permutation n key).Perm (List.range n) :=
  npPermutation_perm _ n

theorem generate_permutation_length (n : Nat) (key : String) :
    (generate_permutation n key).length = n := by
  simpa using (generate_permutation_perm n key).length_eq

theorem generate_keystream_length (n : Nat) (key : String) :
    (generate_keystream n key).length = n := by
  simp [generate_keystream, npRandintBytes]

theorem getD_inj (l : List Nat) (hl : l.Nodup) {i j : Nat} (hi : i < l.length)
    (hj : j < l.length) (h : l.getD i 0 = l.getD j 0) : i = j := by
  rw [List.getD_eq_getElem _ _ hi, List.getD_eq_getElem _ _ hj] at h
  exact (List.Nodup.getElem_inj_iff hl).1 h

theorem getD_map_lt (f : Nat → Nat) (l : List Nat) {j : Nat} (hj : j < l.length) :
    (l.map f).getD j 0 = f (l.getD j 0) := by
  rw [List.getD_eq_getElem _ _ (by simpa using hj), List.getD_eq_getElem _ _ hj,
    List.getElem_map]

/-- Entries of a permutation of `range n` are below `n`. -/
theorem getD_lt_of_perm_range {perm : List Nat}
    (hperm : perm.Perm (List.range perm.length)) {i : Nat} (hi : i < perm.length) :
    perm.getD i 0 < perm.length := by
  have hmem : perm.getD i 0 ∈ perm := by
    rw [List.getD_eq_getElem _ _ hi]; exact List.getElem_mem hi
  simpa using (hperm.mem_iff).1 hmem

theorem invPermFoldGo_length (perm : List Nat) :
    ∀ (idxs : List Nat) (acc : List Nat),
      (idxs.foldl (fun acc i => acc.set (perm.getD i 0) i) acc).length = acc.length
  | [], _ => rfl
  | i :: idxs, acc => by
      simpa using invPermFoldGo_length perm idxs (acc.set (perm.getD i 0) i)

theorem invPerm_length (perm : List Nat) : (invPerm perm).length = perm.length := by
  simpa [invPerm] using invPermFoldGo_length perm (List.range perm.length)
    (List.replicate perm.length 0)

/-- Partial correctness of the `inv_perm[perm] = arange(n)` scatter: after
processing the first `m` indices, position `perm[i]` holds `i` for every
`i < m`. -/
theorem invPermFold_spec (perm : List Nat)
    (hperm : perm.Perm (List.range perm.length)) :
    ∀ m, m ≤ perm.length → ∀ i, i < m →
      ((List.range m).foldl (fun acc i => acc.set (perm.getD i 0) i)
          (List.replicate perm.length 0)).getD (perm.getD i 0) 0 = i := by
  have hnd : perm.Nodup := (hperm.nodup_iff).2 (List.nodup_range _)
  intro m
  induction m with
  | zero => intro _ i hi; exact absurd hi (Nat.not_lt_zero i)
  | succ m ih =>
      intro hm i hi
      rw [List.range_succ, List.foldl_append]
      set A := (List.range m).foldl (fun acc i => acc.set (perm.getD i 0) i)
        (List.replicate perm.length 0) with hA
      have hAlen : A.length = perm.length := by
        simpa [hA] using invPermFoldGo_length perm (List.range m)
          (List.replicate perm.length 0)
      simp only [List.foldl_cons, List.foldl_nil]
      rcases Nat.lt_or_ge i m with him | him
      · have hne : perm.getD m 0 ≠ perm.getD i 0 := by
          intro h
          exact absurd (getD_inj perm hnd (Nat.lt_of_succ_le hm)
            (Nat.lt_of_lt_of_le hi hm) h) (by omega)
        rw [getD_set_ne A m hne]
        exact ih (Nat.le_of_succ_le hm) i him
      · have him2 : i = m := by omega
        subst him2
        have hlt : perm.getD i 0 < A.length := by
          rw [hAlen]
          exact getD_lt_of_perm_range hperm (Nat.lt_of_succ_le hm)
        exact getD_set_self A (perm.getD i 0) i hlt

theorem invPerm_getD (perm : List Nat)
    (hperm : perm.Perm (List.range perm.length)) {i : Nat} (hi : i < perm.length) :
    (invPerm perm).getD (perm.getD i 0) 0 = i := by
  simpa [invPerm] using invPermFold_spec perm hperm perm.length (Nat.le_refl _) i hi

/-- The inverse permutation entry at `t` is in range and is mapped back to
`t` by the permutation. -/
theorem invPerm_spec (perm : List Nat)
    (hperm : perm.Perm (List.range perm.length)) {t : Nat} (ht : t < perm.length) :
    (invPerm perm).getD t 0 < perm.length ∧
      perm.getD ((invPerm perm).getD t 0) 0 = t := by
  have hmem : t ∈ perm := (hperm.mem_iff).2 (by simpa using ht)
  obtain ⟨i, hi, hit⟩ := List.mem_iff_getElem.1 hmem
  have hgd : perm.getD i 0 = t := by rw [List.getD_eq_getElem _ _ hi, hit]
  have hinv := invPerm_getD perm hperm hi
  rw [hgd] at hinv
  rw [hinv]
  exact ⟨hi, hgd⟩

theorem zipWith_xor_cancel :
    ∀ (l k : List Nat), l.length = k.length →
      List.zipWith Nat.xor (List.zipWith Nat.xor l k) k = l
  | [], [], _ => rfl
  | [], b :: k, h => by simp at h
  | a :: l, [], h => by simp at h
  | a :: l, b :: k, h => by
      simp only [List.zipWith_cons_cons, List.cons.injEq]
      exact ⟨Nat.xor_cancel_right b a, zipWith_xor_cancel l k (by simpa using h)⟩

theorem natToBytesBE_lt :
    ∀ (k x : Nat), ∀ b ∈ natToBytesBE k x, b < 256
  | 0, _ => by intro b hb; simp [natToBytesBE] at hb
  | k + 1, x => by
      intro b hb
      simp only [natToBytesBE, List.mem_append, List.mem_singleton] at hb
      rcases hb with hb | hb
      · exact natToBytesBE_lt k (x / 256) b hb
      · subst hb; exact Nat.mod_lt _ (by norm_num)

theorem sha256_bytes_lt (msg : List Nat) : ∀ b ∈ sha256 msg, b < 256 := by
  intro b hb
  simp only [sha256, List.mem_flatMap] at hb
  obtain ⟨w, _, hbw⟩ := hb
  exact natToBytesBE_lt 4 w b hbw

theorem foldlBytes_lt :
    ∀ (l : List Nat) (acc : Nat), (∀ b ∈ l, b < 256) →
      l.foldl (fun acc b => acc * 256 + b) acc < (acc + 1) * 256 ^ l.length
  | [], acc, _ => by simp
  | b :: l, acc, h => by
      have hb : b < 256 := h b (List.mem_cons_self b l)
      have ih := foldlBytes_lt l (acc * 256 + b)
        (fun x hx => h x (List.mem_cons_of_mem _ hx))
      simp only [List.foldl_cons, List.length_cons]
      calc List.foldl (fun acc b => acc * 256 + b) (acc * 256 + b) l
          < (acc * 256 + b + 1) * 256 ^ l.length := ih
        _ ≤ ((acc + 1) * 256) * 256 ^ l.length := by gcongr; omega
        _ = (acc + 1) * 256 ^ (l.length + 1) := by ring

theorem fromBytesBE_lt (l : List Nat) (h : ∀ b ∈ l, b < 256) :
    fromBytesBE l < 256 ^ l.length := by
  simpa [fromBytesBE] using foldlBytes_lt l 0 h

theorem sha256_to_int_lt (s salt : String) : sha256_to_int s salt < 2 ^ 64 := by
  have h1 : ∀ b ∈ (sha256 (utf8Bytes (salt ++ s))).take 8, b < 256 := fun b hb =>
    sha256_bytes_lt _ b (List.take_subset _ _ hb)
  have h2 := fromBytesBE_lt _ h1
  have h3 : ((sha256 (utf8Bytes (salt ++ s))).take 8).length ≤ 8 := by
    simp [List.length_take]
  calc sha256_to_int s salt
      < 256 ^ ((sha256 (utf8Bytes (salt ++ s))).take 8).length := h2
    _ ≤ 256 ^ 8 := Nat.pow_le_pow_right (by norm_num) h3
    _ = 2 ^ 64 := by norm_num

theorem ext_getD (l1 l2 : List Nat) (hl : l1.length = l2.length)
    (h : ∀ i, i < l1.length → l1.getD i 0 = l2.getD i 0) : l1 = l2 := by
  apply List.ext_getElem hl
  intro n h1 h2
  have hn := h n h1
  rwa [List.getD_eq_getElem _ _ h1, List.getD_eq_getElem _ _ h2] at hn

theorem getD_zipWith_xor :
    ∀ (l k : List Nat) (i : Nat), i < l.length → i < k.length →
      (List.zipWith Nat.xor l k).getD i 0 = Nat.xor (l.getD i 0) (k.getD i 0)
  | [], _, i, hi, _ => absurd hi (by simp)
  | _ :: _, [], i, _, hk => absurd hk (by simp)
  | a :: l, c :: k, 0, _, _ => rfl
  | a :: l, c :: k, i + 1, hi, hk => by
      simpa using getD_zipWith_xor l k i (by simpa using hi) (by simpa using hk)

theorem getD_range (n : Nat) {i : Nat} (hi : i < n) :
    (List.range n).getD i 0 = i := by
  rw [List.getD_eq_getElem _ _ (by simpa using hi)]
  exact List.getElem_range i _

/-! ## The claims -/

/-- Specification-side seed derivation, spec section 4.1 word for word:
hash the concatenation `tag + passphrase` with SHA-256, take the first 8
bytes of the digest, interpret them as a big-endian unsigned integer. -/
def derive_seed_spec (passphrase tag : String) : Nat :=
  fromBytesBE ((sha256 (utf8Bytes (tag ++ passphrase))).take 8)

/-- C1: for every byte buffer and every passphrase, decrypting the
encryption with the same passphrase restores the buffer byte-for-byte
(proved for all passphrases, so in particular all non-empty ones). -/
theorem decrypt_encrypt_roundtrip (key : String) (b : List Nat) :
    decrypt_bytes (encrypt_bytes b key) key = b := by
  have hp := generate_permutation_perm b.length key
  have hplen : (generate_permutation b.length key).length = b.length :=
    generate_permutation_length b.length key
  have hklen : (generate_keystream b.length key).length = b.length :=
    generate_keystream_length b.length key
  have hpermlen :
      ((generate_permutation b.length key).map (fun j => b.getD j 0)).length = b.length := by
    simpa using hplen
  have henc : encrypt_bytes b key =
      List.zipWith Nat.xor
        ((generate_permutation b.length key).map (fun j => b.getD j 0))
        (generate_keystream b.length key) := rfl
  have henclen : (encrypt_bytes b key).length = b.length := by
    rw [henc, List.length_zipWith, hpermlen, hklen, Nat.min_self]
  have hdec : decrypt_bytes (encrypt_bytes b key) key =
      (invPerm (generate_permutation (encrypt_bytes b key).length key)).map
        (fun j => (List.zipWith Nat.xor (encrypt_bytes b key)
          (generate_keystream (encrypt_bytes b key).length key)).getD j 0) := rfl
  rw [hdec, henclen, henc,
    zipWith_xor_cancel _ _ (by rw [hpermlen, hklen])]
  have hperm2 : (generate_permutation b.length key).Perm
      (List.range (generate_permutation b.length key).length) := by
    rw [hplen]; exact hp
  apply ext_getD
  · rw [List.length_map, invPerm_length, hplen]
  · intro t h1
    have ht : t < (generate_permutation b.length key).length := by
      rwa [List.length_map, invPerm_length] at h1
    obtain ⟨hlt, hback⟩ := invPerm_spec _ hperm2 ht
    rw [getD_map_lt _ _ (show t < (invPerm (generate_permutation b.length key)).length by
        rwa [invPerm_length]),
      getD_map_lt _ _ hlt, hback]

/-- C2: the ciphertext at position `i` is `buffer[π[i]] XOR k[i]` where `π`
is the permutation drawn from the "perm"-tagged seed and `k` the keystream
drawn from the "xor"-tagged seed: bytes are gathered in permuted order and
then XORed element-wise with the keystream. -/
theorem encrypt_bytes_spec (key : String) (b : List Nat) :
    encrypt_bytes b key =
      (List.range b.length).map (fun i =>
        Nat.xor (b.getD ((generate_permutation b.length key).getD i 0) 0)
          ((generate_keystream b.length key).getD i 0)) := by
  have hplen : (generate_permutation b.length key).length = b.length :=
    generate_permutation_length b.length key
  have hklen : (generate_keystream b.length key).length = b.length :=
    generate_keystream_length b.length key
  show List.zipWith Nat.xor
      ((generate_permutation b.length key).map (fun j => b.getD j 0))
      (generate_keystream b.length key) = _
  apply ext_getD
  · simp only [List.length_zipWith, List.length_map, List.length_range, hplen, hklen,
      Nat.min_self]
  · intro i h1
    have hi : i < b.length := by
      simpa only [List.length_zipWith, List.length_map, hplen, hklen, Nat.min_self] using h1
    rw [getD_zipWith_xor _ _ i (by rw [List.length_map, hplen]; exact hi)
        (by rw [hklen]; exact hi),
      getD_map_lt _ _ (show i < (generate_permutation b.length key).length by
        rw [hplen]; exact hi),
      getD_map_lt _ _ (show i < (List.range b.length).length by
        rw [List.length_range]; exact hi),
      getD_range _ hi]

/-- C3: `sha256_to_int(s, tag)` is exactly the spec's seed derivation — the
first 8 bytes of the SHA-256 digest of the UTF-8 encoding of `tag + s`
(tag prepended), read as a big-endian unsigned integer — and the result
always fits in 64 bits; it is a total function on all strings, the empty
passphrase included. -/
theorem sha256_to_int_spec (s tag : String) :
    sha256_to_int s tag = derive_seed_spec s tag ∧ sha256_to_int s tag < 2 ^ 64 :=
  ⟨rfl, sha256_to_int_lt s tag⟩

/-- C4: for every `n` and every key, `generate_permutation n key` has
length `n`, has no duplicate entries, and its members are exactly the
integers of `[0, n)` — it contains every integer in `[0, n)` once. -/
theorem generate_permutation_valid (n : Nat) (key : String) :
    (generate_permutation n key).length = n ∧
    (generate_permutation n key).Nodup ∧
    ∀ k : Nat, k ∈ generate_permutation n key ↔ k < n := by
  have hp := generate_permutation_perm n key
  exact ⟨by simpa using hp.length_eq, (hp.nodup_iff).2 (List.nodup_range n),
    fun k => (hp.mem_iff).trans List.mem_range⟩

/-- C5: determinism — `generate_permutation` and `generate_keystream` are
pure functions of their arguments, re-seeded from the passphrase on every
call, so identical arguments always yield identical sequences. -/
theorem generate_deterministic (n : Nat) (key : String) (m : Nat) (key2 : String)
    (hn : n = m) (hk : key = key2) :
    generate_permutation n key = generate_permutation m key2 ∧
    generate_keystream n key = generate_keystream m key2 := by
  subst hn; subst hk; exact ⟨rfl, rfl⟩

/-- Witness for C5 at `n = 8`, `key = "key"`. -/
theorem generate_deterministic_witness :
    generate_permutation 8 "key" = generate_permutation 8 "key" ∧
    generate_keystream 8 "key" = generate_keystream 8 "key" :=
  generate_deterministic 8 "key" 8 "key" rfl rfl

/-- C6: counter-evidence — `save_bytes_as_image` passes the requested
output path verbatim to `cv2.imwrite`, whose codec is selected by the
filename extension, so requesting `encrypted.jpg` selects the lossy JPEG
encoder; only a lossless extension such as `.png` yields a lossless file.
The code's own comment says it uses PNG to avoid lossy compression, but
nothing forces that. -/
theorem save_format_follows_extension :
    save_format "encrypted.jpg" = "jpg" ∧ losslessExt "jpg" = false ∧
    save_format "encrypted.png" = "png" ∧ losslessExt "png" = true := by
  refine ⟨by decide, by decide, by decide, by decide⟩

/-- C7: if the input path is missing or undecodable (`cv2.imread` gives
`None`), both file operations surface the load error to the caller and
return it before any output file is produced. -/
theorem load_failure_aborts (fs : String → Option Image) (inp outp key : String)
    (h : fs inp = none) :
    encrypt_image_file fs inp outp key =
      Except.error ("Could not read image: " ++ inp) ∧
    decrypt_image_file fs inp outp key =
      Except.error ("Could not read image: " ++ inp) := by
  simp [encrypt_image_file, decrypt_image_file, read_image_as_bytes, h]

/-- Witness for C7: an empty filesystem and the path "missing.png". -/
theorem load_failure_aborts_witness :
    encrypt_image_file (fun _ => none) "missing.png" "out.png" "key" =
      Except.error ("Could not read image: " ++ "missing.png") ∧
    decrypt_image_file (fun _ => none) "missing.png" "out.png" "key" =
      Except.error ("Could not read image: " ++ "missing.png") :=
  load_failure_aborts (fun _ => none) "missing.png" "out.png" "key" rfl

/-- C8: encryption and decryption preserve the buffer length for every
buffer and key; the empty buffer round-trips to the empty buffer without
error; and the permutation derived for `n = 1` is the identity `[0]`. -/
theorem size_preservation_and_edge_cases (key : String) (b : List Nat) :
    (encrypt_bytes b key).length = b.length ∧
    (decrypt_bytes b key).length = b.length ∧
    encrypt_bytes [] key = [] ∧
    decrypt_bytes [] key = [] ∧
    generate_permutation 1 key = [0] := by
  have hplen : ∀ m : Nat, (generate_permutation m key).length = m :=
    fun m => generate_permutation_length m key
  have hklen : ∀ m : Nat, (generate_keystream m key).length = m :=
    fun m => generate_keystream_length m key
  refine ⟨?_, ?_, ?_, ?_, ?_⟩
  · simp [encrypt_bytes, hplen, hklen]
  · simp [decrypt_bytes, invPerm_length, hplen]
  · have h0 : generate_permutation 0 key = [] :=
      List.eq_nil_of_length_eq_zero (hplen 0)
    simp [encrypt_bytes, h0]
  · have h0 : generate_permutation 0 key = [] :=
      List.eq_nil_of_length_eq_zero (hplen 0)
    simp [decrypt_bytes, invPerm, h0]
  · rfl

set_option maxRecDepth 100000 in
/-- C9: the "perm"-tagged and "xor"-tagged seeds differ for each of the
spec's test passphrases "key", "abc" and "test123". -/
theorem seed_tags_differ :
    sha256_to_int "key" "perm" ≠ sha256_to_int "key" "xor" ∧
    sha256_to_int "abc" "perm" ≠ sha256_to_int "abc" "xor" ∧
    sha256_to_int "test123" "perm" ≠ sha256_to_int "test123" "xor" :=
  ⟨by decide, by decide, by decide⟩

/-- C10: the transform depends on each derived 64-bit seed only through its
value modulo `2 ^ 32`: if two passphrases agree on both reduced seeds, the
permutation, the keystream, and hence encryption and decryption coincide —
the upper 32 bits of the seeds never influence the result. -/
theorem seed_mod32_equiv (n : Nat) (k1 k2 : String)
    (hp : sha256_to_int k1 "perm" % 2 ^ 32 = sha256_to_int k2 "perm" % 2 ^ 32)
    (hx : sha256_to_int k1 "xor" % 2 ^ 32 = sha256_to_int k2 "xor" % 2 ^ 32) :
    generate_permutation n k1 = generate_permutation n k2 ∧
    generate_keystream n k1 = generate_keystream n k2 ∧
    ∀ b : List Nat, encrypt_bytes b k1 = encrypt_bytes b k2 ∧
      decrypt_bytes b k1 = decrypt_bytes b k2 := by
  have h1 : ∀ m : Nat, generate_permutation m k1 = generate_permutation m k2 := by
    intro m
    show npPermutation (mtInit (sha256_to_int k1 "perm" % 2 ^ 32)) m =
      npPermutation (mtInit (sha256_to_int k2 "perm" % 2 ^ 32)) m
    rw [hp]
  have h2 : ∀ m : Nat, generate_keystream m k1 = generate_keystream m k2 := by
    intro m
    show npRandintBytes (mtInit (sha256_to_int k1 "xor" % 2 ^ 32)) m =
      npRandintBytes (mtInit (sha256_to_int k2 "xor" % 2 ^ 32)) m
    rw [hx]
  refine ⟨h1 n, h2 n, fun b => ⟨?_, ?_⟩⟩
  · show List.zipWith Nat.xor
        ((generate_permutation b.length k1).map (fun j => b.getD j 0))
        (generate_keystream b.length k1) =
      List.zipWith Nat.xor
        ((generate_permutation b.length k2).map (fun j => b.getD j 0))
        (generate_keystream b.length k2)
    rw [h1, h2]
  · show (invPerm (generate_permutation b.length k1)).map
        (fun j => (List.zipWith Nat.xor b (generate_keystream b.length k1)).getD j 0) =
      (invPerm (generate_permutation b.length k2)).map
        (fun j => (List.zipWith Nat.xor b (generate_keystream b.length k2)).getD j 0)
    rw [h1, h2]

/-- Witness for C10: the hypotheses hold (by reflexivity) at
`k1 = k2 = "key"`, `n = 8`, buffer `[1, 2, 3]`. -/
theorem seed_mod32_equiv_witness :
    generate_permutation 8 "key" = generate_permutation 8 "key" ∧
    encrypt_bytes [1, 2, 3] "key" = encrypt_bytes [1, 2, 3] "key" :=
  ⟨(seed_mod32_equiv 8 "key" "key" rfl rfl).1,
   ((seed_mod32_equiv 8 "key" "key" rfl rfl).2.2 [1, 2, 3]).1⟩

end ImageEncryptor
